import Mathlib

/-!
Verification of the derived-data backfill/tail pipeline
(`src/cmds/backfill_derived_data.rs`) against its specification.

The Rust source is shallowly embedded below: pure functions become Lean
functions, and the stateful mapping-cache operations become explicit
state passing over a `MappingState`.  Sequential future combinators
(`Stream::for_each`, which awaits each produced future before requesting
the next item) become sequential folds that also record an event trace.
-/

namespace BackfillDerivedData

/-- A commit identifier (`ChangesetId` in the source); an opaque id,
modelled as a natural number. -/
abbrev ChangesetId := Nat

/-! ### Windowed range enumerator

Source (`windows`, backfill_derived_data.rs lines 285-290):
```
fn windows(start: u64, stop: u64, step: u64) -> impl Iterator<Item = (u64, u64)> {
    (0..)
        .map(move |index| (start + index * step, start + (index + 1) * step))
        .take_while(move |(low, _high)| *low < stop)
        .map(move |(low, high)| (low, std::cmp::min(stop, high)))
}
```
The source computes in `u64`, whose wrapping arithmetic is embedded as
explicit `% 2 ^ 64`.  Under wrap the emitted sequence can be
astronomically long (and infinite for `step = 0`), so the faithful
semantics `windows64At` is given in indexed form: the window emitted at
position `i`, if any.  In the no-wrap regime (`stop + step ≤ 2 ^ 64`,
where every u64 value the iterator inspects equals its `Nat` value) the
sequence is the finite list `windows` below;
`windows64At_eq_windows` proves the two agree index by index there. -/

/-- The `(0..).map(...)` stage of the source iterator: the raw pair at
index `i`, in u64 wrapping arithmetic. -/
def windowsRaw (start step i : Nat) : Nat × Nat :=
  ((start + i * step) % 2 ^ 64, (start + (i + 1) * step) % 2 ^ 64)

/-- The u64-faithful semantics of the source `windows` iterator: the
window emitted at position `i`, if any.  `take_while` keeps position
`i` exactly when the raw low was below `stop` at every position up to
and including `i`, and the final `map` clamps the high end with
`min stop`. -/
def windows64At (start stop step : Nat) (i : Nat) : Option (Nat × Nat) :=
  if ∀ j ≤ i, (windowsRaw start step j).1 < stop then
    some ((windowsRaw start step i).1, min stop (windowsRaw start step i).2)
  else none

/-- The window list in the no-wrap regime: unfolding the iterator one
step, the tail of the sequence is the same iterator restarted at
`start + step`.  The guard `0 < step` makes the function total. -/
def windows (start stop step : Nat) : List (Nat × Nat) :=
  if _h : start < stop ∧ 0 < step then
    (start, min stop (start + step)) :: windows (start + step) stop step
  else []
termination_by stop - start
decreasing_by omega

/-! ### Mapping cache, regenerate overlay, and the DerivedUtils operations

`DerivedUtilsFromMapping` (source lines 224-265) wraps a
`RegenerateMapping<M>` from the `derived_data` crate (which is not under
`src/`); that wrapper's behaviour is modelled from the spec below.  The
state of one derived-data kind is its durable Mapping Cache plus the
process-lifetime Regenerate Overlay. -/

/-- The state of one derived-data kind's mapping: the Mapping Cache (an
association from ChangesetId to a derived-artifact handle, the handle
modelled as a `Nat`) and the Regenerate Overlay (a set of ids whose
cache entries are treated as absent). -/
structure MappingState where
  entries : List (ChangesetId × Nat)
  regenerate : List ChangesetId
  deriving DecidableEq, Repr

/-- Modelled from the spec: `RegenerateMapping::get` (crate
`derived_data`, not under `src/`).  Spec §3: the Regenerate Overlay is a
set of ChangesetIds "whose cache entries should be treated as absent
regardless of what the underlying Mapping Cache reports"; `get` hence
returns the Mapping Cache entries for the requested ids, omitting ids in
the overlay. -/
def MappingState.get (st : MappingState) (csids : List ChangesetId) :
    List (ChangesetId × Nat) :=
  csids.filterMap fun c =>
    if c ∈ st.regenerate then none
    else (st.entries.lookup c).map fun v => (c, v)

/-- `HashMap::contains_key` on the association list returned by
`MappingState.get`. -/
def containsKey (m : List (ChangesetId × Nat)) (c : ChangesetId) : Bool :=
  m.any fun p => p.1 == c

/-- `DerivedUtilsFromMapping::pending` (source lines 247-260): fetch
`self.mapping.get(ctx, csids.clone())` and then
`csids.retain(|csid| !derived.contains_key(&csid))`: keep exactly the
input ids, in input order, that have no entry in the fetched map. -/
def pending (st : MappingState) (csids : List ChangesetId) : List ChangesetId :=
  let derived := st.get csids
  csids.filter fun csid => !(containsKey derived csid)

/-- A primitive effect on a kind's mapping state, used to record what
each operation does to the state (reads leave it unchanged). -/
inductive MapEffect where
  | read (csids : List ChangesetId)
  | put (csid : ChangesetId) (handle : Nat)
  | addRegenerate (csids : List ChangesetId)
  | removeRegenerate (csid : ChangesetId)
  deriving DecidableEq, Repr

def applyEffect (st : MappingState) : MapEffect → MappingState
  | .read _ => st
  | .put c h => { st with entries := (c, h) :: st.entries.filter fun p => !(p.1 == c) }
  | .addRegenerate cs => { st with regenerate := st.regenerate ++ cs }
  | .removeRegenerate c => { st with regenerate := st.regenerate.filter fun x => !(x == c) }

def applyEffects (st : MappingState) (es : List MapEffect) : MappingState :=
  es.foldl applyEffect st

/-- The effects performed by `pending` (source lines 247-260): the only
state access is a single `self.mapping.get` read. -/
def pendingEffects (csids : List ChangesetId) : List MapEffect :=
  [.read csids]

/-- `DerivedUtilsFromMapping::regenerate` (source lines 262-264) calls
`self.mapping.regenerate(csids)`; modelled from the spec, this "adds the
given commits to the Regenerate Overlay ... without deleting any
existing mapping entry". -/
def regenerateEffects (csids : List ChangesetId) : List MapEffect :=
  [.addRegenerate csids]

def regenerateState (st : MappingState) (csids : List ChangesetId) : MappingState :=
  applyEffects st (regenerateEffects csids)

/-- Modelled from the spec: `derive` (source lines 241-245 delegate to
`BonsaiDerived::derive`, crate `derived_data`, not under `src/`)
"computes and durably records the derived artifact for `commit`, or is
a no-op if a valid cache entry already exists (subject to the
Regenerate Overlay)"; recording goes through the regenerate wrapper's
put, which removes the commit from the overlay (spec: regenerate is
"reversible only by a new successful `derive`").  `handle` is the
recorded artifact handle. -/
def deriveEffects (st : MappingState) (c : ChangesetId) (handle : Nat) :
    List MapEffect :=
  if containsKey (st.get [c]) c then [.read [c]]
  else [.read [c], .removeRegenerate c, .put c handle]

def deriveState (st : MappingState) (c : ChangesetId) (handle : Nat) : MappingState :=
  applyEffects st (deriveEffects st c handle)

/-! ### Backfill driver: processing order and chunking

Source (`subcommand_backfill`, lines 369-387):
```
changesets.sort_by_key(|cs_entry| cs_entry.gen);
let changesets: Vec<_> = changesets.into_iter().skip(skip)
    .map(|entry| entry.cs_id).collect();
...
stream::iter_ok(changesets).chunks(CHUNK_SIZE)
```
Rust's `sort_by_key` is a stable sort; it is embedded as `mergeSort`
on the generation key. -/

/-- `ChangesetEntry` (crate `changesets`): commit id, generation
number, parent ids. -/
structure ChangesetEntry where
  cs_id : ChangesetId
  gen : Nat
  parents : List ChangesetId
  deriving DecidableEq, Repr

def CHUNK_SIZE : Nat := 4096

/-- `changesets.sort_by_key(|cs_entry| cs_entry.gen)` (source line
370): a stable sort by generation number, ascending. -/
def sortEntries (entries : List ChangesetEntry) : List ChangesetEntry :=
  entries.mergeSort fun a b => decide (a.gen ≤ b.gen)

/-- The ordered id list the backfill iterates (source lines 369-375):
sort by generation, drop the first `skip` entries, keep the ids. -/
def backfillIds (entries : List ChangesetEntry) (skip : Nat) : List ChangesetId :=
  ((sortEntries entries).drop skip).map fun e => e.cs_id

/-- `Stream::chunks(n)` (source line 387): split a list into
consecutive chunks of size `n`; the last chunk may be shorter. -/
def chunksOf (n : Nat) (l : List α) : List (List α) :=
  match l with
  | [] => []
  | a :: rest =>
    if _hn : n = 0 then []
    else (a :: rest).take n :: chunksOf n ((a :: rest).drop n)
termination_by l.length
decreasing_by
  simp
  omega

/-- The backfill's chunks of commit ids (source lines 386-387). -/
def backfillChunks (entries : List ChangesetEntry) (skip : Nat) :
    List (List ChangesetId) :=
  chunksOf CHUNK_SIZE (backfillIds entries skip)

/-- The same chunks before projecting each entry to its id; used to
speak about the generation numbers inside each chunk. -/
def backfillEntryChunks (entries : List ChangesetEntry) (skip : Nat) :
    List (List ChangesetEntry) :=
  chunksOf CHUNK_SIZE ((sortEntries entries).drop skip)

/-! ### Backfill driver: per-chunk execution, failures, and persist

Source (`subcommand_backfill`, lines 408-448):
```
.for_each(move |chunk| {
    stream::iter_ok(chunk)
        .for_each(... derived_utils.derive(ctx.clone(), repo.clone(), csid))
        .and_then(... memblobstore.persist(ctx))
        .timed(...)
})
```
futures-0.1 `Stream::for_each` awaits the future returned for one
element before requesting the next — both over the commits inside a
chunk and over the chunks themselves — and stops at the first error,
which becomes the error of the whole composed future.  The execution is
embedded as a sequential fold that records a trace of derive/persist
events; the outcome of deriving one commit is an abstract
`d : ChangesetId → Except ε Unit`. -/

inductive BEvent where
  | derive (c : ChangesetId)
  | persist
  deriving DecidableEq, Repr

/-- One chunk's derivations (the inner `for_each`, source lines
410-418): derive each commit in order, stopping at the first error. -/
def runChunkDerives {ε : Type} (d : ChangesetId → Except ε Unit) :
    List ChangesetId → Except ε Unit × List BEvent
  | [] => (.ok (), [])
  | c :: cs =>
    match d c with
    | .error e => (.error e, [.derive c])
    | .ok _ =>
      let r := runChunkDerives d cs
      (r.1, .derive c :: r.2)

/-- One chunk's processing (source lines 408-422): the derivations,
then — only on success (`and_then`) — `memblobstore.persist`. -/
def runChunk {ε : Type} (d : ChangesetId → Except ε Unit)
    (chunk : List ChangesetId) : Except ε Unit × List BEvent :=
  match runChunkDerives d chunk with
  | (.ok _, t) => (.ok (), t ++ [.persist])
  | (.error e, t) => (.error e, t)

/-- The outer `for_each` over chunks (source line 408): process the
chunks in order, stopping at the first failed chunk. -/
def runBackfill {ε : Type} (d : ChangesetId → Except ε Unit) :
    List (List ChangesetId) → Except ε Unit × List BEvent
  | [] => (.ok (), [])
  | ch :: rest =>
    match runChunk d ch with
    | (.ok _, t) =>
      let r := runBackfill d rest
      (r.1, t ++ r.2)
    | (.error e, t) => (.error e, t)

def persistCount (t : List BEvent) : Nat :=
  t.countP fun e => e == BEvent.persist

def derivedOf (t : List BEvent) : List ChangesetId :=
  t.filterMap fun e => match e with | .derive c => some c | .persist => none

/-- The canonical trace of a fully processed chunk list: each chunk's
derivations in order followed by one persist. -/
def chunkTrace (chunks : List (List ChangesetId)) : List BEvent :=
  (chunks.map fun ch => ch.map BEvent.derive ++ [BEvent.persist]).flatten

/-! ### Intra-chunk scheduling

The inner `for_each` over a chunk (source lines 410-418) obtains, for
each commit, the future returned by `derived_utils.derive`, and awaits
it to completion before requesting the next commit from the stream —
futures-0.1 `Stream::for_each` semantics.  (Contrast the blob prefetch
at lines 392-398 and the tail loop at line 518, which use
`buffered(...)` for bounded-concurrent execution; no `buffered` appears
in the derivation stage.)  A derivation's lifetime is recorded as a
`start`/`finish` event pair, and sequential awaiting means the pair for
one commit closes before the next one opens. -/

inductive DEvent where
  | start (c : ChangesetId)
  | finish (c : ChangesetId)
  deriving DecidableEq, Repr

/-- The schedule of derivation lifetimes produced by the chunk's inner
`for_each`: strictly sequential, in chunk order. -/
def chunkDeriveSchedule : List ChangesetId → List DEvent
  | [] => []
  | c :: cs => DEvent.start c :: DEvent.finish c :: chunkDeriveSchedule cs

def startedOf (t : List DEvent) : List ChangesetId :=
  t.filterMap fun e => match e with | .start c => some c | .finish _ => none

def finishedOf (t : List DEvent) : List ChangesetId :=
  t.filterMap fun e => match e with | .finish c => some c | .start _ => none

/-- Number of derivations in flight after a schedule ran: derivations
started and not yet finished. -/
def inFlightAfter (t : List DEvent) : Nat :=
  (startedOf t).length - (finishedOf t).length

/-- The maximal number of simultaneously in-flight derivations over all
instants (prefixes) of a schedule. -/
def maxInFlight (t : List DEvent) : Nat :=
  ((List.range (t.length + 1)).map fun i => inFlightAfter (t.take i)).foldr Nat.max 0

/-! ### Tail driver: one iteration

Source (`subcommand_tail`, lines 465-538): list the bookmark heads,
compute each configured kind's `pending` over the heads, flatten the
kinds' results into one work list; if it is empty, sleep 250 ms
(`tokio_timer::sleep(Duration::from_millis(250))`) and retry, otherwise
run every pending derivation through `buffered(1024)` and retry
immediately with no sleep. -/

inductive TailAction where
  | sleepMs (ms : Nat)
  | deriveAll (csids : List ChangesetId) (bound : Nat)
  deriving DecidableEq, Repr

/-- The combined pending work list of one tail iteration (source lines
479-509): each kind's `pending` over the heads, flattened. -/
def combinedPending (kinds : List MappingState) (heads : List ChangesetId) :
    List ChangesetId :=
  (kinds.map fun st => pending st heads).flatten

/-- One iteration of the tail loop (source lines 508-533). -/
def tailIteration (kinds : List MappingState) (heads : List ChangesetId) :
    TailAction :=
  let pendingAll := combinedPending kinds heads
  if pendingAll.isEmpty then TailAction.sleepMs 250
  else TailAction.deriveAll pendingAll 1024

/-! ### Theorems -/

theorem windows_nil (start stop step : Nat) (h : stop ≤ start) :
    windows start stop step = [] := by
  rw [windows]
  rw [dif_neg]
  omega

theorem windows_cons (start stop step : Nat) (h1 : start < stop) (h2 : 0 < step) :
    windows start stop step =
      (start, min stop (start + step)) :: windows (start + step) stop step := by
  rw [windows]
  simp only [dif_pos (And.intro h1 h2)]

theorem windows_mem_bounds (start stop step : Nat) (hstep : 0 < step) :
    ∀ w ∈ windows start stop step,
      start ≤ w.1 ∧ w.1 < w.2 ∧ w.2 ≤ stop ∧ w.2 - w.1 ≤ step := by
  generalize hn : stop - start = n
  induction n using Nat.strong_induction_on generalizing start with
  | _ n ih =>
    intro w hw
    by_cases hlt : start < stop
    · rw [windows_cons start stop step hlt hstep] at hw
      rcases List.mem_cons.mp hw with hw | hw
      · subst hw
        constructor
        · exact Nat.le_refl _
        refine And.intro ?_ (And.intro ?_ ?_) <;> simp [Nat.lt_min] <;> omega
      · have hrec := ih (stop - (start + step)) (by omega) (start + step) rfl w hw
        omega
    · rw [windows_nil start stop step (by omega)] at hw
      exact absurd hw (List.not_mem_nil w)

theorem windows_chain (start stop step : Nat) (hstep : 0 < step) :
    (windows start stop step).Chain' (fun p q => p.2 = q.1) := by
  generalize hn : stop - start = n
  induction n using Nat.strong_induction_on generalizing start with
  | _ n ih =>
    by_cases hlt : start < stop
    · rw [windows_cons start stop step hlt hstep]
      have htail := ih (stop - (start + step)) (by omega) (start + step) rfl
      by_cases hlt2 : start + step < stop
      · rw [windows_cons (start + step) stop step hlt2 hstep] at htail ⊢
        refine List.chain'_cons.mpr (And.intro ?_ htail)
        exact min_eq_right (Nat.le_of_lt hlt2)
      · rw [windows_nil (start + step) stop step (by omega)]
        simp
    · rw [windows_nil start stop step (by omega)]
      exact List.chain'_nil

theorem windows_head (start stop step : Nat) (h1 : start < stop) (h2 : 0 < step) :
    (windows start stop step).head?.map Prod.fst = some start := by
  rw [windows_cons start stop step h1 h2]
  rfl

theorem windows_last (start stop step : Nat) (h1 : start < stop) (h2 : 0 < step) :
    (windows start stop step).getLast?.map Prod.snd = some stop := by
  generalize hn : stop - start = n
  induction n using Nat.strong_induction_on generalizing start with
  | _ n ih =>
    rw [windows_cons start stop step h1 h2]
    by_cases hlt2 : start + step < stop
    · have htail := ih (stop - (start + step)) (by omega) (start + step) hlt2 rfl
      rw [windows_cons (start + step) stop step hlt2 h2] at htail ⊢
      rw [List.getLast?_cons_cons]
      exact htail
    · rw [windows_nil (start + step) stop step (by omega)]
      simp [min_eq_left (show stop ≤ start + step by omega)]

/-- Tiling of the no-wrap window list: empty when `start = stop`;
otherwise the first pair's low is `start`, consecutive pairs are
contiguous (`p.2 = q.1`, hence non-overlapping since each pair
satisfies `w.1 < w.2`), every pair has width `w.2 - w.1 ≤ step` and
`w.2 ≤ stop`, and the final pair's high is `stop`. -/
theorem windows_tiles (start stop step : Nat) (hle : start ≤ stop) (hstep : 0 < step) :
    (start = stop → windows start stop step = []) ∧
    (start < stop → (windows start stop step).head?.map Prod.fst = some start) ∧
    (windows start stop step).Chain' (fun p q => p.2 = q.1) ∧
    (∀ w ∈ windows start stop step,
      start ≤ w.1 ∧ w.1 < w.2 ∧ w.2 ≤ stop ∧ w.2 - w.1 ≤ step) ∧
    (start < stop → (windows start stop step).getLast?.map Prod.snd = some stop) := by
  refine And.intro ?_ (And.intro ?_ (And.intro ?_ (And.intro ?_ ?_)))
  · intro heq
    exact windows_nil start stop step (Nat.le_of_eq heq.symm)
  · intro hlt
    exact windows_head start stop step hlt hstep
  · exact windows_chain start stop step hstep
  · exact windows_mem_bounds start stop step hstep
  · intro hlt
    exact windows_last start stop step hlt hstep

theorem windows64At_none (s stop step : Nat) (i : Nat) (h : ¬ s % 2 ^ 64 < stop) :
    windows64At s stop step i = none := by
  rw [windows64At, if_neg]
  intro hall
  exact h (by simpa [windowsRaw] using hall 0 (Nat.zero_le i))

theorem windows64At_zero (start stop step : Nat) :
    windows64At start stop step 0 =
      if start % 2 ^ 64 < stop then
        some (start % 2 ^ 64, min stop ((start + step) % 2 ^ 64))
      else none := by
  by_cases h0 : start % 2 ^ 64 < stop
  · rw [windows64At, if_pos ?_, if_pos h0]
    · simp [windowsRaw]
    · intro j hj
      have hj0 : j = 0 := Nat.le_zero.mp hj
      subst hj0
      simpa [windowsRaw] using h0
  · rw [if_neg h0]
    exact windows64At_none start stop step 0 h0

theorem windowsRaw_shift (start step j : Nat) :
    windowsRaw start step (j + 1) = windowsRaw (start + step) step j := by
  unfold windowsRaw
  have h1 : start + (j + 1) * step = start + step + j * step := by ring
  have h2 : start + (j + 1 + 1) * step = start + step + (j + 1) * step := by ring
  rw [h1, h2]

theorem windows64At_succ (start stop step i : Nat) :
    windows64At start stop step (i + 1) =
      if start % 2 ^ 64 < stop then windows64At (start + step) stop step i
      else none := by
  by_cases h0 : start % 2 ^ 64 < stop
  · rw [if_pos h0]
    have hguard : (∀ j ≤ i + 1, (windowsRaw start step j).1 < stop) ↔
        (∀ j ≤ i, (windowsRaw (start + step) step j).1 < stop) := by
      constructor
      · intro hall j hj
        rw [← windowsRaw_shift]
        exact hall (j + 1) (by omega)
      · intro hall j hj
        match j with
        | 0 => simpa [windowsRaw] using h0
        | (j + 1) =>
          rw [windowsRaw_shift]
          exact hall j (by omega)
    rw [windows64At, windows64At]
    by_cases hg : ∀ j ≤ i, (windowsRaw (start + step) step j).1 < stop
    · rw [if_pos (hguard.mpr hg), if_pos hg, windowsRaw_shift]
    · rw [if_neg (fun hh => hg (hguard.mp hh)), if_neg hg]
  · rw [if_neg h0]
    exact windows64At_none start stop step (i + 1) h0

/-- In the no-wrap regime the u64 iterator semantics agrees, index by
index, with the `Nat` window list. -/
theorem windows64At_eq_windows (start stop step : Nat) (hle : start ≤ stop)
    (hstep : 0 < step) (hwrap : stop + step ≤ 2 ^ 64) :
    ∀ i, windows64At start stop step i = (windows start stop step)[i]? := by
  generalize hn : stop - start = n
  induction n using Nat.strong_induction_on generalizing start with
  | _ n ih =>
    intro i
    by_cases hlt : start < stop
    · rw [windows_cons start stop step hlt hstep]
      have hmod : start % 2 ^ 64 = start := Nat.mod_eq_of_lt (by omega)
      match i with
      | 0 =>
        rw [windows64At_zero, if_pos (by rw [hmod]; exact hlt), hmod,
          Nat.mod_eq_of_lt (show start + step < 2 ^ 64 by omega)]
        rw [List.getElem?_cons_zero]
      | (i + 1) =>
        rw [windows64At_succ, if_pos (by rw [hmod]; exact hlt),
          List.getElem?_cons_succ]
        by_cases hlt2 : start + step ≤ stop
        · exact ih (stop - (start + step)) (by omega) (start + step) hlt2 rfl i
        · rw [windows_nil (start + step) stop step (by omega)]
          rw [windows64At_none (start + step) stop step i ?_]
          · simp
          · rw [Nat.mod_eq_of_lt (show start + step < 2 ^ 64 by omega)]
            omega
    · rw [windows_nil start stop step (by omega)]
      rw [windows64At_none start stop step i ?_]
      · simp
      · rw [Nat.mod_eq_of_lt (show start < 2 ^ 64 by omega)]
        omega

/-- C2 counterexample: the claim quantifies over all `start ≤ stop` and
`step > 0`, but the source computes in u64; at `start = 2^64 - 4`,
`stop = 2^64 - 1`, `step = 8` the high of the first emitted window
wraps to `4`, so the window `(2^64 - 4, 4)` has its high below its low
and the sequence does not tile `[start, stop)`. -/
theorem windows_wrap_counterexample :
    2 ^ 64 - 4 ≤ 2 ^ 64 - 1 ∧ (0 : Nat) < 8 ∧
    windows64At (2 ^ 64 - 4) (2 ^ 64 - 1) 8 0 = some (2 ^ 64 - 4, 4) ∧
    ¬ ((2 ^ 64 - 4 : Nat) < 4) := by
  refine ⟨by decide, by decide, ?_, by decide⟩
  rw [windows64At_zero]
  rw [Nat.mod_eq_of_lt (by decide), if_pos (by decide)]
  have h2 : ((2 ^ 64 - 4) + 8) % 2 ^ 64 = 4 := by decide
  rw [h2, min_eq_right (by decide)]

/-- C2 (amended): for all `start ≤ stop` and `step > 0` such that
`stop + step ≤ 2 ^ 64` (the u64 additions the iterator inspects never
wrap), the sequence produced by `windows` — given index by index by the
u64-faithful `windows64At`, which agrees with the list `windows` here —
exactly tiles `[start, stop)`: empty when `start = stop`; otherwise the
first pair's low is `start`, consecutive pairs are contiguous and
non-overlapping (`p.2 = q.1` with `w.1 < w.2`), every pair has width
`w.2 - w.1 ≤ step` and high `w.2 ≤ stop`, and the final pair's high is
`stop`. -/
theorem windows_tiles_u64 (start stop step : Nat) (hle : start ≤ stop)
    (hstep : 0 < step) (hwrap : stop + step ≤ 2 ^ 64) :
    (∀ i, windows64At start stop step i = (windows start stop step)[i]?) ∧
    (start = stop → windows start stop step = []) ∧
    (start < stop → (windows start stop step).head?.map Prod.fst = some start) ∧
    (windows start stop step).Chain' (fun p q => p.2 = q.1) ∧
    (∀ w ∈ windows start stop step,
      start ≤ w.1 ∧ w.1 < w.2 ∧ w.2 ≤ stop ∧ w.2 - w.1 ≤ step) ∧
    (start < stop → (windows start stop step).getLast?.map Prod.snd = some stop) :=
  ⟨windows64At_eq_windows start stop step hle hstep hwrap,
    windows_tiles start stop step hle hstep⟩

/-- Witness for C2 at `start = 0`, `stop = 5`, `step = 2`
(windows `[(0,2),(2,4),(4,5)]`, no wrap since `5 + 2 ≤ 2 ^ 64`). -/
theorem windows_tiles_u64_witness :
    (∀ i, windows64At 0 5 2 i = (windows 0 5 2)[i]?) ∧
    (0 = 5 → windows 0 5 2 = []) ∧
    (0 < 5 → (windows 0 5 2).head?.map Prod.fst = some 0) ∧
    (windows 0 5 2).Chain' (fun p q => p.2 = q.1) ∧
    (∀ w ∈ windows 0 5 2, 0 ≤ w.1 ∧ w.1 < w.2 ∧ w.2 ≤ 5 ∧ w.2 - w.1 ≤ 2) ∧
    (0 < 5 → (windows 0 5 2).getLast?.map Prod.snd = some 5) :=
  windows_tiles_u64 0 5 2 (by decide) (by decide) (by decide)


theorem mem_get_iff (st : MappingState) (csids : List ChangesetId) (p : ChangesetId × Nat) :
    p ∈ st.get csids ↔
      p.1 ∈ csids ∧ p.1 ∉ st.regenerate ∧ st.entries.lookup p.1 = some p.2 := by
  simp only [MappingState.get, List.mem_filterMap]
  constructor
  · rintro ⟨a, ha, hfa⟩
    by_cases hreg : a ∈ st.regenerate
    · rw [if_pos hreg] at hfa
      cases hfa
    · rw [if_neg hreg] at hfa
      obtain ⟨v, hv, hpv⟩ := Option.map_eq_some'.mp hfa
      subst hpv
      exact ⟨ha, hreg, hv⟩
  · rintro ⟨h1, h2, h3⟩
    refine ⟨p.1, h1, ?_⟩
    rw [if_neg h2, h3]
    simp

theorem containsKey_get_iff (st : MappingState) (csids : List ChangesetId) (c : ChangesetId) :
    containsKey (st.get csids) c = true ↔
      c ∈ csids ∧ c ∉ st.regenerate ∧ (st.entries.lookup c).isSome = true := by
  simp only [containsKey, List.any_eq_true]
  constructor
  · rintro ⟨p, hp, hpc⟩
    have hc : p.1 = c := by simpa using hpc
    obtain ⟨h1, h2, h3⟩ := (mem_get_iff st csids p).mp hp
    subst hc
    exact ⟨h1, h2, by simp [h3]⟩
  · rintro ⟨h1, h2, h3⟩
    obtain ⟨v, hv⟩ := Option.isSome_iff_exists.mp h3
    exact ⟨(c, v), (mem_get_iff st csids (c, v)).mpr ⟨h1, h2, hv⟩, by simp⟩

theorem mem_pending_iff (st : MappingState) (csids : List ChangesetId) (c : ChangesetId) :
    c ∈ pending st csids ↔
      c ∈ csids ∧ (c ∈ st.regenerate ∨ st.entries.lookup c = none) := by
  have h1 : c ∈ pending st csids ↔
      c ∈ csids ∧ ¬ containsKey (st.get csids) c = true := by
    simp [pending, List.mem_filter]
  rw [h1, containsKey_get_iff]
  constructor
  · rintro ⟨hmem, hnot⟩
    refine ⟨hmem, ?_⟩
    by_cases hreg : c ∈ st.regenerate
    · exact Or.inl hreg
    · right
      rcases hlk : st.entries.lookup c with _ | v
      · rfl
      · exact absurd ⟨hmem, hreg, by simp [hlk]⟩ hnot
  · rintro ⟨hmem, hcase⟩
    refine ⟨hmem, fun hcon => ?_⟩
    obtain ⟨-, hreg, hsome⟩ := hcon
    rcases hcase with hreg2 | hnone
    · exact hreg hreg2
    · rw [hnone] at hsome
      cases hsome

theorem deriveState_lookup (st : MappingState) (c : ChangesetId) (handle : Nat) :
    ((deriveState st c handle).entries.lookup c).isSome = true ∧
      c ∉ (deriveState st c handle).regenerate := by
  rw [deriveState, deriveEffects]
  by_cases hck : containsKey (st.get [c]) c = true
  · rw [if_pos hck]
    simp only [applyEffects, List.foldl, applyEffect]
    obtain ⟨-, hreg, hsome⟩ := (containsKey_get_iff st [c] c).mp hck
    exact ⟨hsome, hreg⟩
  · rw [if_neg hck]
    simp only [applyEffects, List.foldl, applyEffect]
    constructor
    · simp [List.lookup]
    · intro hmem
      rw [List.mem_filter] at hmem
      simp at hmem

/-- C1: `pending` returns exactly the not-yet-durably-derived inputs: a
commit with a Mapping Cache entry that is not in the Regenerate Overlay
is absent from the result; a commit without such an entry is present;
after `derive` succeeds for a commit, a subsequent `pending` over a set
containing it excludes it; and before `derive` has run (no cache entry)
it is included. -/
theorem pending_exact (st : MappingState) (csids : List ChangesetId)
    (c : ChangesetId) (handle : Nat) (hmem : c ∈ csids) :
    (((st.entries.lookup c).isSome = true ∧ c ∉ st.regenerate) →
      c ∉ pending st csids) ∧
    (¬ ((st.entries.lookup c).isSome = true ∧ c ∉ st.regenerate) →
      c ∈ pending st csids) ∧
    (c ∉ pending (deriveState st c handle) csids) ∧
    (st.entries.lookup c = none → c ∈ pending st csids) := by
  refine And.intro ?_ (And.intro ?_ (And.intro ?_ ?_))
  · rintro ⟨hsome, hreg⟩ hpend
    obtain ⟨-, hcase⟩ := (mem_pending_iff st csids c).mp hpend
    rcases hcase with h | h
    · exact hreg h
    · rw [h] at hsome
      cases hsome
  · intro hnot
    refine (mem_pending_iff st csids c).mpr ⟨hmem, ?_⟩
    by_cases hreg : c ∈ st.regenerate
    · exact Or.inl hreg
    · right
      rcases hlk : st.entries.lookup c with _ | v
      · rfl
      · exact absurd ⟨by simp [hlk], hreg⟩ hnot
  · intro hpend
    obtain ⟨hsome, hreg⟩ := deriveState_lookup st c handle
    obtain ⟨-, hcase⟩ := (mem_pending_iff _ csids c).mp hpend
    rcases hcase with h | h
    · exact hreg h
    · rw [h] at hsome
      cases hsome
  · intro hnone
    exact (mem_pending_iff st csids c).mpr ⟨hmem, Or.inr hnone⟩

/-- Witness for C1 at the state with cache `{7 ↦ 1}`, empty overlay,
inputs `[5, 7]`, commit `5`, handle `9`. -/
theorem pending_exact_witness :
    ((((⟨[(7, 1)], []⟩ : MappingState).entries.lookup 5).isSome = true ∧
        5 ∉ (⟨[(7, 1)], []⟩ : MappingState).regenerate →
      5 ∉ pending ⟨[(7, 1)], []⟩ [5, 7]) ∧
    (¬ (((⟨[(7, 1)], []⟩ : MappingState).entries.lookup 5).isSome = true ∧
        5 ∉ (⟨[(7, 1)], []⟩ : MappingState).regenerate) →
      5 ∈ pending ⟨[(7, 1)], []⟩ [5, 7]) ∧
    (5 ∉ pending (deriveState ⟨[(7, 1)], []⟩ 5 9) [5, 7]) ∧
    ((⟨[(7, 1)], []⟩ : MappingState).entries.lookup 5 = none →
      5 ∈ pending ⟨[(7, 1)], []⟩ [5, 7])) :=
  pending_exact ⟨[(7, 1)], []⟩ [5, 7] 5 9 (by decide)

/-- C5: after `regenerate([c])`, `pending` over a set containing `c`
includes `c` even though a prior `derive(c)` succeeded and `c`'s
mapping entry still exists (no mapping entry is deleted), and after a
following successful `derive(c)`, `pending` excludes `c` again. -/
theorem regenerate_pending (st : MappingState) (csids : List ChangesetId)
    (c : ChangesetId) (handle : Nat) (hmem : c ∈ csids)
    (hprior : (st.entries.lookup c).isSome = true) :
    (regenerateState st [c]).entries = st.entries ∧
    (((regenerateState st [c]).entries.lookup c).isSome = true) ∧
    c ∈ pending (regenerateState st [c]) csids ∧
    c ∉ pending (deriveState (regenerateState st [c]) c handle) csids := by
  refine And.intro rfl (And.intro hprior (And.intro ?_ ?_))
  · refine (mem_pending_iff _ csids c).mpr ⟨hmem, Or.inl ?_⟩
    simp [regenerateState, regenerateEffects, applyEffects, applyEffect]
  · intro hpend
    obtain ⟨hsome, hreg⟩ := deriveState_lookup (regenerateState st [c]) c handle
    obtain ⟨-, hcase⟩ := (mem_pending_iff _ csids c).mp hpend
    rcases hcase with h | h
    · exact hreg h
    · rw [h] at hsome
      cases hsome

/-- Witness for C5 at the state with cache `{5 ↦ 2}`, empty overlay,
inputs `[5, 7]`, commit `5`, handle `9`. -/
theorem regenerate_pending_witness :
    (regenerateState ⟨[(5, 2)], []⟩ [5]).entries =
      (⟨[(5, 2)], []⟩ : MappingState).entries ∧
    (((regenerateState ⟨[(5, 2)], []⟩ [5]).entries.lookup 5).isSome = true) ∧
    5 ∈ pending (regenerateState ⟨[(5, 2)], []⟩ [5]) [5, 7] ∧
    5 ∉ pending (deriveState (regenerateState ⟨[(5, 2)], []⟩ [5]) 5 9) [5, 7] :=
  regenerate_pending ⟨[(5, 2)], []⟩ [5, 7] 5 9 (by decide) (by decide)

/-- C9: `pending` does not mutate any state: its only effect is a
mapping read, so applying its effects leaves the Mapping Cache and the
Regenerate Overlay exactly as they were before the call. -/
theorem pending_no_mutation (st : MappingState) (csids : List ChangesetId) :
    (applyEffects st (pendingEffects csids)).entries = st.entries ∧
    (applyEffects st (pendingEffects csids)).regenerate = st.regenerate :=
  And.intro rfl rfl

/-- C10: the output of `pending` is a subsequence of its input: the
not-yet-derived commits appear in the same relative order as in the
input, and every duplicate occurrence of a not-yet-derived commit is
preserved (its multiplicity in the output equals that in the input). -/
theorem pending_sublist (st : MappingState) (csids : List ChangesetId)
    (c : ChangesetId) (hc : c ∈ st.regenerate ∨ st.entries.lookup c = none) :
    (pending st csids).Sublist csids ∧
    (pending st csids).count c = csids.count c := by
  constructor
  · simp only [pending]
    exact List.filter_sublist csids
  · simp only [pending]
    apply List.count_filter
    have hck : ¬ containsKey (MappingState.get st csids) c = true := by
      intro h
      obtain ⟨-, hreg, hsome⟩ := (containsKey_get_iff st csids c).mp h
      rcases hc with h2 | h2
      · exact hreg h2
      · rw [h2] at hsome
        cases hsome
    simp [hck]

/-- Witness for C10 at the state with cache `{7 ↦ 1}`, overlay `[3]`,
inputs `[5, 7, 5]`, commit `5` (no cache entry). -/
theorem pending_sublist_witness :
    (pending ⟨[(7, 1)], [3]⟩ [5, 7, 5]).Sublist [5, 7, 5] ∧
    (pending ⟨[(7, 1)], [3]⟩ [5, 7, 5]).count 5 = List.count 5 [5, 7, 5] :=
  pending_sublist ⟨[(7, 1)], [3]⟩ [5, 7, 5] 5 (by decide)


theorem chunksOf_nil (n : Nat) : chunksOf n ([] : List α) = [] := by
  rw [chunksOf]

theorem chunksOf_zero (l : List α) : chunksOf 0 l = [] := by
  cases l with
  | nil => rw [chunksOf]
  | cons a rest =>
    rw [chunksOf]
    exact dif_pos rfl

theorem chunksOf_cons (n : Nat) (l : List α) (hl : l ≠ []) (hn : n ≠ 0) :
    chunksOf n l = l.take n :: chunksOf n (l.drop n) := by
  cases l with
  | nil => exact absurd rfl hl
  | cons a rest =>
    rw [chunksOf]
    exact dif_neg hn

theorem chunksOf_map (f : α → β) (n : Nat) (l : List α) :
    chunksOf n (l.map f) = (chunksOf n l).map (List.map f) := by
  generalize hk : l.length = k
  induction k using Nat.strong_induction_on generalizing l with
  | _ k ih =>
    by_cases hl : l = []
    · subst hl
      simp [chunksOf_nil]
    by_cases hn : n = 0
    · subst hn
      simp [chunksOf_zero]
    have hml : l.map f ≠ [] := by
      simpa using hl
    rw [chunksOf_cons n (l.map f) hml hn, chunksOf_cons n l hl hn]
    rw [← List.map_take, ← List.map_drop]
    rw [ih ((l.drop n).length) ?_ (l.drop n) rfl]
    · simp
    · rw [List.length_drop]
      have hlen : l.length ≠ 0 := fun h0 => hl (List.eq_nil_of_length_eq_zero h0)
      omega

theorem chunksOf_flatten (n : Nat) (hn : n ≠ 0) (l : List α) :
    (chunksOf n l).flatten = l := by
  generalize hk : l.length = k
  induction k using Nat.strong_induction_on generalizing l with
  | _ k ih =>
    by_cases hl : l = []
    · subst hl
      simp [chunksOf_nil]
    rw [chunksOf_cons n l hl hn]
    rw [List.flatten_cons]
    rw [ih ((l.drop n).length) ?_ (l.drop n) rfl]
    · exact List.take_append_drop n l
    · rw [List.length_drop]
      have hlen : l.length ≠ 0 := fun h0 => hl (List.eq_nil_of_length_eq_zero h0)
      omega

theorem chunksOf_mem_length (n : Nat) (l : List α) :
    ∀ ch ∈ chunksOf n l, ch.length ≤ n ∧ ch ≠ [] := by
  generalize hk : l.length = k
  induction k using Nat.strong_induction_on generalizing l with
  | _ k ih =>
    intro ch hch
    by_cases hl : l = []
    · subst hl
      rw [chunksOf_nil] at hch
      cases hch
    by_cases hn : n = 0
    · subst hn
      rw [chunksOf_zero] at hch
      cases hch
    rw [chunksOf_cons n l hl hn] at hch
    rcases List.mem_cons.mp hch with hch | hch
    · subst hch
      constructor
      · simp
      · simp [List.take_eq_nil_iff]
        push_neg
        exact ⟨hn, hl⟩
    · refine ih ((l.drop n).length) ?_ (l.drop n) rfl ch hch
      rw [List.length_drop]
      have hlen : l.length ≠ 0 := fun h0 => hl (List.eq_nil_of_length_eq_zero h0)
      omega

theorem chunksOf_dropLast_length (n : Nat) (l : List α) :
    ∀ ch ∈ (chunksOf n l).dropLast, ch.length = n := by
  generalize hk : l.length = k
  induction k using Nat.strong_induction_on generalizing l with
  | _ k ih =>
    intro ch hch
    by_cases hl : l = []
    · subst hl
      rw [chunksOf_nil] at hch
      cases hch
    by_cases hn : n = 0
    · subst hn
      rw [chunksOf_zero] at hch
      cases hch
    rw [chunksOf_cons n l hl hn] at hch
    by_cases hrest : l.drop n = []
    · rw [hrest, chunksOf_nil] at hch
      simp at hch
    · have hne : chunksOf n (l.drop n) ≠ [] := by
        rw [chunksOf_cons n (l.drop n) hrest hn]
        simp
      rw [List.dropLast_cons_of_ne_nil hne] at hch
      rcases List.mem_cons.mp hch with hch | hch
      · subst hch
        rw [List.length_take]
        have : n < l.length := by
          by_contra hcon
          exact hrest (List.drop_eq_nil_of_le (by omega))
        omega
      · refine ih ((l.drop n).length) ?_ (l.drop n) rfl ch hch
        rw [List.length_drop]
        have hlen : l.length ≠ 0 := fun h0 => hl (List.eq_nil_of_length_eq_zero h0)
        omega

theorem chunksOf_pairwise {R : α → α → Prop} (n : Nat) (hn : n ≠ 0) (l : List α)
    (h : l.Pairwise R) :
    (chunksOf n l).Pairwise fun c d => ∀ a ∈ c, ∀ b ∈ d, R a b := by
  generalize hk : l.length = k
  induction k using Nat.strong_induction_on generalizing l with
  | _ k ih =>
    by_cases hl : l = []
    · subst hl
      rw [chunksOf_nil]
      exact List.Pairwise.nil
    rw [chunksOf_cons n l hl hn]
    have hsplit : l.Pairwise R := h
    rw [← List.take_append_drop n l] at hsplit
    obtain ⟨htake, hdrop, hcross⟩ := List.pairwise_append.mp hsplit
    refine List.Pairwise.cons ?_ ?_
    · intro d hd a ha b hb
      have hbmem : b ∈ (chunksOf n (l.drop n)).flatten :=
        List.mem_flatten.mpr ⟨d, hd, hb⟩
      rw [chunksOf_flatten n hn] at hbmem
      exact hcross a ha b hbmem
    · refine ih ((l.drop n).length) ?_ (l.drop n) hdrop rfl
      rw [List.length_drop]
      have hlen : l.length ≠ 0 := fun h0 => hl (List.eq_nil_of_length_eq_zero h0)
      omega

theorem sortEntries_pairwise (entries : List ChangesetEntry) :
    (sortEntries entries).Pairwise fun a b => a.gen ≤ b.gen := by
  have h : (entries.mergeSort fun a b => decide (a.gen ≤ b.gen)).Pairwise
      (fun a b => decide (a.gen ≤ b.gen) = true) :=
    List.sorted_mergeSort
      (fun a b c hab hbc => by
        simp only [decide_eq_true_eq] at *
        omega)
      (fun a b => by
        simp only [Bool.or_eq_true, decide_eq_true_eq]
        omega)
      entries
  exact h.imp fun hab => by simpa using hab

theorem sortEntries_stable (entries : List ChangesetEntry) (g : Nat) :
    (sortEntries entries).filter (fun e => e.gen == g) =
      entries.filter (fun e => e.gen == g) := by
  have htrans : ∀ a b c : ChangesetEntry,
      decide (a.gen ≤ b.gen) → decide (b.gen ≤ c.gen) → decide (a.gen ≤ c.gen) := by
    intro a b c hab hbc
    simp only [decide_eq_true_eq] at *
    omega
  have htotal : ∀ a b : ChangesetEntry,
      (decide (a.gen ≤ b.gen) || decide (b.gen ≤ a.gen)) = true := by
    intro a b
    simp only [Bool.or_eq_true, decide_eq_true_eq]
    omega
  set p : ChangesetEntry → Bool := fun e => e.gen == g with hp
  have hpair : (entries.filter p).Pairwise
      fun a b => decide (a.gen ≤ b.gen) = true := by
    refine List.pairwise_of_forall_mem_list ?_
    intro a ha b hb
    have ha2 := (List.mem_filter.mp ha).2
    have hb2 := (List.mem_filter.mp hb).2
    simp only [hp, beq_iff_eq] at ha2 hb2
    simp [ha2, hb2]
  have hsub : List.Sublist (entries.filter p) (sortEntries entries) :=
    List.sublist_mergeSort htrans htotal hpair (List.filter_sublist entries)
  have hsub2 : List.Sublist (entries.filter p) ((sortEntries entries).filter p) := by
    have h1 := hsub.filter p
    rw [show (entries.filter p).filter p = entries.filter p from
      List.filter_eq_self.mpr fun a ha => (List.mem_filter.mp ha).2] at h1
    exact h1
  have hperm : ((sortEntries entries).filter p).Perm (entries.filter p) :=
    (List.mergeSort_perm entries _).filter p
  exact (hsub2.eq_of_length hperm.length_eq.symm).symm

/-- C3: the backfill driver stably sorts the snapshot entries by
generation number ascending (entries with equal generation keep their
snapshot order — the filter at each generation value is unchanged),
drops the first `skip` entries, and partitions the remaining ids, in
order, into chunks of `CHUNK_SIZE = 4096` (the last chunk may be
shorter); consequently every commit of an earlier chunk has generation
at most that of every commit of a later chunk. -/
theorem backfill_order (entries : List ChangesetEntry) (skip : Nat) :
    ((sortEntries entries).Pairwise fun a b => a.gen ≤ b.gen) ∧
    (∀ g, (sortEntries entries).filter (fun e => e.gen == g) =
      entries.filter (fun e => e.gen == g)) ∧
    backfillChunks entries skip =
      (backfillEntryChunks entries skip).map (List.map fun e => e.cs_id) ∧
    (backfillEntryChunks entries skip).flatten = (sortEntries entries).drop skip ∧
    CHUNK_SIZE = 4096 ∧
    (∀ ch ∈ backfillEntryChunks entries skip, ch.length ≤ CHUNK_SIZE ∧ ch ≠ []) ∧
    (∀ ch ∈ (backfillEntryChunks entries skip).dropLast, ch.length = CHUNK_SIZE) ∧
    ((backfillEntryChunks entries skip).Pairwise
      fun c d => ∀ a ∈ c, ∀ b ∈ d, a.gen ≤ b.gen) := by
  refine ⟨sortEntries_pairwise entries, fun g => sortEntries_stable entries g,
    ?_, ?_, rfl, ?_, ?_, ?_⟩
  · rw [backfillChunks, backfillIds, backfillEntryChunks]
    exact chunksOf_map _ CHUNK_SIZE _
  · exact chunksOf_flatten CHUNK_SIZE (by decide) _
  · exact chunksOf_mem_length CHUNK_SIZE _
  · exact chunksOf_dropLast_length CHUNK_SIZE _
  · refine chunksOf_pairwise CHUNK_SIZE (by decide) _ ?_
    exact List.Pairwise.sublist (List.drop_sublist skip _) (sortEntries_pairwise entries)


theorem derivedOf_append (s t : List BEvent) :
    derivedOf (s ++ t) = derivedOf s ++ derivedOf t := by
  simp only [derivedOf]
  exact List.filterMap_append s t _

theorem derivedOf_map_derive (l : List ChangesetId) :
    derivedOf (l.map BEvent.derive) = l := by
  induction l with
  | nil => rfl
  | cons c cs ih =>
    simp only [derivedOf, List.map_cons, List.filterMap_cons] at ih ⊢
    rw [ih]

theorem persistCount_append (s t : List BEvent) :
    persistCount (s ++ t) = persistCount s + persistCount t :=
  List.countP_append _ _ _

theorem persistCount_map_derive (l : List ChangesetId) :
    persistCount (l.map BEvent.derive) = 0 := by
  induction l with
  | nil => rfl
  | cons c cs ih =>
    simp only [persistCount, List.map_cons, List.countP_cons] at ih ⊢
    simp [ih]

theorem derivedOf_chunkTrace (chunks : List (List ChangesetId)) :
    derivedOf (chunkTrace chunks) = chunks.flatten := by
  induction chunks with
  | nil => rfl
  | cons ch rest ih =>
    simp only [chunkTrace, List.map_cons, List.flatten_cons] at ih ⊢
    rw [derivedOf_append, derivedOf_append, derivedOf_map_derive, ih]
    simp [derivedOf]

theorem persistCount_chunkTrace (chunks : List (List ChangesetId)) :
    persistCount (chunkTrace chunks) = chunks.length := by
  induction chunks with
  | nil => rfl
  | cons ch rest ih =>
    simp only [chunkTrace, List.map_cons, List.flatten_cons] at ih ⊢
    rw [persistCount_append, persistCount_append, persistCount_map_derive, ih]
    simp [persistCount]
    omega

theorem runChunkDerives_ok {ε : Type} (d : ChangesetId → Except ε Unit)
    (l : List ChangesetId) (hok : ∀ x ∈ l, d x = .ok ()) :
    runChunkDerives d l = (.ok (), l.map BEvent.derive) := by
  induction l with
  | nil => rfl
  | cons c cs ih =>
    rw [runChunkDerives, hok c (List.mem_cons_self c cs),
      ih fun x hx => hok x (List.mem_cons_of_mem c hx)]
    rfl

theorem runChunkDerives_fail {ε : Type} (d : ChangesetId → Except ε Unit)
    (cpre cpost : List ChangesetId) (c : ChangesetId) (e : ε)
    (hok : ∀ x ∈ cpre, d x = .ok ()) (hfail : d c = .error e) :
    runChunkDerives d (cpre ++ c :: cpost) =
      (.error e, cpre.map BEvent.derive ++ [BEvent.derive c]) := by
  induction cpre with
  | nil =>
    rw [List.nil_append, runChunkDerives, hfail]
    rfl
  | cons a as ih =>
    rw [List.cons_append, runChunkDerives, hok a (List.mem_cons_self a as),
      ih fun x hx => hok x (List.mem_cons_of_mem a hx)]
    rfl

theorem runChunk_ok {ε : Type} (d : ChangesetId → Except ε Unit)
    (chunk : List ChangesetId) (hok : ∀ x ∈ chunk, d x = .ok ()) :
    runChunk d chunk = (.ok (), chunk.map BEvent.derive ++ [BEvent.persist]) := by
  rw [runChunk, runChunkDerives_ok d chunk hok]

theorem runBackfill_ok {ε : Type} (d : ChangesetId → Except ε Unit)
    (chunks : List (List ChangesetId)) (hok : ∀ x ∈ chunks.flatten, d x = .ok ()) :
    runBackfill d chunks = (.ok (), chunkTrace chunks) := by
  induction chunks with
  | nil => rfl
  | cons ch rest ih =>
    rw [runBackfill, runChunk_ok d ch fun x hx =>
      hok x (by simp only [List.flatten_cons]; exact List.mem_append_left _ hx)]
    rw [ih fun x hx =>
      hok x (by simp only [List.flatten_cons]; exact List.mem_append_right _ hx)]
    simp [chunkTrace]

theorem chunksOf_length (k : Nat) (hk : k ≠ 0) (l : List α) :
    (chunksOf k l).length = (l.length + k - 1) / k := by
  generalize hm : l.length = m
  induction m using Nat.strong_induction_on generalizing l with
  | _ m ih =>
    by_cases hl : l = []
    · subst hl
      simp only [List.length_nil] at hm
      subst hm
      rw [chunksOf_nil]
      rw [Nat.div_eq_of_lt (by omega)]
      rfl
    · have hm1 : 1 ≤ m := by
        rcases Nat.eq_zero_or_pos m with h0 | h1
        · rw [← hm] at h0
          exact absurd (List.eq_nil_of_length_eq_zero h0) hl
        · exact h1
      rw [chunksOf_cons k l hl hk]
      rw [List.length_cons]
      rw [ih ((l.drop k).length) (by rw [List.length_drop]; omega) (l.drop k) rfl]
      rw [List.length_drop, hm]
      have hrw : m + k - 1 = (m - 1) + k := by omega
      rw [hrw, Nat.add_div_right _ (Nat.pos_of_ne_zero hk)]
      by_cases hcmp : k ≤ m
      · have : m - k + k - 1 = m - 1 := by omega
        rw [this]
      · have h0 : m - k = 0 := by omega
        rw [h0]
        rw [Nat.div_eq_of_lt (by omega), Nat.div_eq_of_lt (by omega)]

/-- C6: if `derive` fails for a commit of a chunk, the chunk is aborted
at that commit (no partial-chunk continuation), the error is propagated
as the result of the whole backfill, no further chunk is processed, and
each attempted commit was derived exactly once (no retry): the trace is
exactly the fully processed earlier chunks followed by the failing
chunk's successful prefix and the failing commit. -/
theorem backfill_fail_aborts {ε : Type} (d : ChangesetId → Except ε Unit)
    (pre post : List (List ChangesetId)) (cpre cpost : List ChangesetId)
    (c : ChangesetId) (e : ε)
    (hok : ∀ x ∈ pre.flatten ++ cpre, d x = .ok ())
    (hfail : d c = .error e) :
    runBackfill d (pre ++ (cpre ++ c :: cpost) :: post) =
      (.error e, chunkTrace pre ++ (cpre.map BEvent.derive ++ [BEvent.derive c])) ∧
    derivedOf (runBackfill d (pre ++ (cpre ++ c :: cpost) :: post)).2 =
      pre.flatten ++ cpre ++ [c] ∧
    persistCount (runBackfill d (pre ++ (cpre ++ c :: cpost) :: post)).2 =
      pre.length := by
  have hmain : runBackfill d (pre ++ (cpre ++ c :: cpost) :: post) =
      (.error e, chunkTrace pre ++ (cpre.map BEvent.derive ++ [BEvent.derive c])) := by
    induction pre with
    | nil =>
      rw [List.nil_append, runBackfill, runChunk,
        runChunkDerives_fail d cpre cpost c e
          (fun x hx => hok x (by simpa using hx)) hfail]
      rfl
    | cons ch rest ih =>
      rw [List.cons_append, runBackfill,
        runChunk_ok d ch fun x hx => hok x (by
          simp only [List.flatten_cons, List.append_assoc]
          exact List.mem_append_left _ hx)]
      rw [ih fun x hx => hok x (by
        simp only [List.flatten_cons, List.append_assoc] at hx ⊢
        exact List.mem_append_right _ hx)]
      simp [chunkTrace]
  refine ⟨hmain, ?_, ?_⟩
  · rw [hmain]
    simp only [derivedOf_append, derivedOf_chunkTrace, derivedOf_map_derive]
    simp [derivedOf, List.append_assoc]
  · rw [hmain]
    simp only [persistCount_append, persistCount_chunkTrace, persistCount_map_derive]
    simp [persistCount]

/-- Witness for C6: chunks `[[0, 1], [2, 3], [9]]` where commit `2`
fails with error `7`: the first chunk completes with a persist, the
second aborts at `2` (commit `3` is never derived), the third chunk is
never processed, and the error is the backfill's result. -/
theorem backfill_fail_aborts_witness :
    runBackfill (fun x => if x == 2 then Except.error 7 else Except.ok ())
        ([[0, 1]] ++ ([] ++ 2 :: [3]) :: [[9]]) =
      (Except.error 7,
        chunkTrace [[0, 1]] ++
          (List.map BEvent.derive [] ++ [BEvent.derive 2])) ∧
    derivedOf (runBackfill (fun x => if x == 2 then Except.error 7 else Except.ok ())
        ([[0, 1]] ++ ([] ++ 2 :: [3]) :: [[9]])).2 =
      [[0, 1]].flatten ++ [] ++ [2] ∧
    persistCount (runBackfill (fun x => if x == 2 then Except.error 7 else Except.ok ())
        ([[0, 1]] ++ ([] ++ 2 :: [3]) :: [[9]])).2 = [[0, 1]].length :=
  backfill_fail_aborts (fun x => if x == 2 then Except.error 7 else Except.ok ())
    [[0, 1]] [[9]] [] [3] 2 7 (by intro x hx; fin_cases hx <;> rfl) rfl

/-- C7: when every derivation succeeds, the run completes and its trace
is per-chunk: each chunk's derivations in order, then exactly one
persist, before the next chunk's derivations — so persist is called
exactly once per processed chunk; and chunking a list of `n` commits
with chunk size `k > 0` yields `⌈n / k⌉ = (n + k - 1) / k` chunks,
hence that many persist calls for a completed run. -/
theorem backfill_persist_per_chunk {ε : Type} (d : ChangesetId → Except ε Unit)
    (chunks : List (List ChangesetId))
    (hok : ∀ x ∈ chunks.flatten, d x = .ok ()) :
    runBackfill d chunks = (.ok (), chunkTrace chunks) ∧
    persistCount (runBackfill d chunks).2 = chunks.length ∧
    (∀ (k : Nat) (l : List ChangesetId), k ≠ 0 →
      (chunksOf k l).length = (l.length + k - 1) / k) ∧
    ∀ (st : MappingState) (k : Nat) (l : List ChangesetId),
      ((chunksOf k l).map fun chunk => pending st chunk).length =
        (chunksOf k l).length := by
  have hmain := runBackfill_ok d chunks hok
  refine ⟨hmain, ?_, fun k l hk => chunksOf_length k hk l,
    fun st k l => List.length_map _ _⟩
  rw [hmain]
  exact persistCount_chunkTrace chunks

/-- Witness for C7: chunks `[[1, 2], [3]]` with an always-succeeding
derive; persist is called twice, and e.g. chunking 5 commits with
chunk size 2 yields 3 chunks. -/
theorem backfill_persist_per_chunk_witness :
    runBackfill (fun _ => (Except.ok () : Except Nat Unit)) [[1, 2], [3]] =
      (Except.ok (), chunkTrace [[1, 2], [3]]) ∧
    persistCount (runBackfill (fun _ => (Except.ok () : Except Nat Unit))
      [[1, 2], [3]]).2 = [[1, 2], [3]].length ∧
    (∀ (k : Nat) (l : List ChangesetId), k ≠ 0 →
      (chunksOf k l).length = (l.length + k - 1) / k) ∧
    ∀ (st : MappingState) (k : Nat) (l : List ChangesetId),
      ((chunksOf k l).map fun chunk => pending st chunk).length =
        (chunksOf k l).length :=
  backfill_persist_per_chunk (fun _ => Except.ok ()) [[1, 2], [3]]
    (by intro x hx; rfl)


theorem inFlightAfter_take_le_one (chunk : List ChangesetId) (i : Nat) :
    inFlightAfter ((chunkDeriveSchedule chunk).take i) ≤ 1 := by
  induction chunk generalizing i with
  | nil => simp [chunkDeriveSchedule, inFlightAfter, startedOf, finishedOf]
  | cons c cs ih =>
    match i with
    | 0 => simp [inFlightAfter, startedOf, finishedOf]
    | 1 => simp [chunkDeriveSchedule, inFlightAfter, startedOf, finishedOf]
    | (i + 2) =>
      have h := ih i
      simp only [chunkDeriveSchedule, List.take_succ_cons] at h ⊢
      simp only [inFlightAfter, startedOf, finishedOf, List.filterMap_cons] at h ⊢
      simp only [List.length_cons]
      omega

theorem foldr_max_le (l : List Nat) (b : Nat) (h : ∀ x ∈ l, x ≤ b) :
    l.foldr Nat.max 0 ≤ b := by
  induction l with
  | nil => exact Nat.zero_le b
  | cons x xs ih =>
    simp only [List.foldr_cons]
    have hx := h x (List.mem_cons_self x xs)
    have hxs := ih fun y hy => h y (List.mem_cons_of_mem x hy)
    exact Nat.max_le.mpr ⟨hx, hxs⟩

/-- C4 counterexample: the claim asserts intra-chunk derivations run
concurrently (bounded by the chunk size) and may complete in any order.
For the two-commit pending chunk `[0, 1]` the schedule produced by the
inner `for_each` never has two derivations in flight, and its
completion order is exactly `[0, 1]` — the order `[1, 0]` is
impossible. -/
theorem chunk_concurrency_counterexample :
    maxInFlight (chunkDeriveSchedule [0, 1]) = 1 ∧
    finishedOf (chunkDeriveSchedule [0, 1]) = [0, 1] ∧
    ¬ finishedOf (chunkDeriveSchedule [0, 1]) = [1, 0] := by
  decide

/-- C4 amended: within each backfill chunk, `derive` is invoked for
every commit of the chunk's pending subset, but sequentially in chunk
order, not concurrently: each derivation finishes before the next
starts, at most one derivation is ever in flight, and completions
occur exactly in chunk order. -/
theorem chunk_sequential (chunk : List ChangesetId) :
    startedOf (chunkDeriveSchedule chunk) = chunk ∧
    finishedOf (chunkDeriveSchedule chunk) = chunk ∧
    chunkDeriveSchedule chunk =
      (chunk.map fun c => [DEvent.start c, DEvent.finish c]).flatten ∧
    maxInFlight (chunkDeriveSchedule chunk) ≤ 1 := by
  refine ⟨?_, ?_, ?_, ?_⟩
  · induction chunk with
    | nil => rfl
    | cons c cs ih =>
      simp only [chunkDeriveSchedule, startedOf, List.filterMap_cons] at ih ⊢
      rw [ih]
  · induction chunk with
    | nil => rfl
    | cons c cs ih =>
      simp only [chunkDeriveSchedule, finishedOf, List.filterMap_cons] at ih ⊢
      rw [ih]
  · induction chunk with
    | nil => rfl
    | cons c cs ih =>
      simp only [chunkDeriveSchedule, List.map_cons, List.flatten_cons] at ih ⊢
      rw [ih]
      rfl
  · refine foldr_max_le _ 1 ?_
    intro x hx
    obtain ⟨i, hi, hix⟩ := List.mem_map.mp hx
    rw [← hix]
    exact inFlightAfter_take_le_one chunk i


/-- C8: in every tail iteration, an empty combined pending list (over
all configured kinds and all current heads) leads to a 250 ms sleep and
no derivation, and a non-empty one leads to deriving exactly the
combined pending commits with concurrency bound 1024 and no sleep
before the retry; a commit is in the combined list iff some configured
kind reports it pending over the heads. -/
theorem tail_iteration_spec (kinds : List MappingState) (heads : List ChangesetId) :
    (combinedPending kinds heads = [] →
      tailIteration kinds heads = TailAction.sleepMs 250 ∧
      ∀ cs b, ¬ tailIteration kinds heads = TailAction.deriveAll cs b) ∧
    (¬ combinedPending kinds heads = [] →
      tailIteration kinds heads =
        TailAction.deriveAll (combinedPending kinds heads) 1024 ∧
      ∀ ms, ¬ tailIteration kinds heads = TailAction.sleepMs ms) ∧
    (∀ c, c ∈ combinedPending kinds heads ↔
      ∃ st ∈ kinds, c ∈ pending st heads) := by
  refine ⟨?_, ?_, ?_⟩
  · intro hempty
    have hiter : tailIteration kinds heads = TailAction.sleepMs 250 := by
      rw [tailIteration]
      simp [hempty]
    exact ⟨hiter, fun cs b hcon => by rw [hiter] at hcon; cases hcon⟩
  · intro hne
    have hiter : tailIteration kinds heads =
        TailAction.deriveAll (combinedPending kinds heads) 1024 := by
      rw [tailIteration]
      simp only [List.isEmpty_iff]
      rw [if_neg hne]
    exact ⟨hiter, fun ms hcon => by rw [hiter] at hcon; cases hcon⟩
  · intro c
    simp only [combinedPending, List.mem_flatten, List.mem_map]
    constructor
    · rintro ⟨l, ⟨st, hst, hl⟩, hc⟩
      exact ⟨st, hst, hl ▸ hc⟩
    · rintro ⟨st, hst, hc⟩
      exact ⟨pending st heads, ⟨st, hst, rfl⟩, hc⟩

end BackfillDerivedData
